import Mathlib

/-!
Verification of the RLE and Huffman codecs of `compression_demo.py`
(PQC-Algorithms repository).

Byte buffers are embedded as `List Nat` (each element a byte value),
bit strings (Python strings of '0'/'1') as `List Bool` (`false` = '0',
`true` = '1'), and the Python dict code table as an association list
with Python-dict update semantics.
-/

namespace Compression

/-! ### Run-Length Encoding (`rle_encode` / `rle_encode`, compression_demo.py lines 32-61) -/

/-- The `for byte in data[1:]` loop of `rle_encode`, with state
`(prev, count, encoded)`; on exhaustion it appends the final pending
`(prev, count)` pair, as the source does after the loop. -/
def rleLoop : List Nat → Nat → Nat → List Nat → List Nat
  | [], prev, count, encoded => encoded ++ [prev, count]
  | byte :: rest, prev, count, encoded =>
      if byte = prev ∧ count < 255 then
        rleLoop rest prev (count + 1) encoded
      else
        rleLoop rest byte 1 (encoded ++ [prev, count])

/-- `rle_encode(data)`: simple Run-Length Encoding (value, count) byte pairs,
count capped at 255. -/
def rle_encode : List Nat → List Nat
  | [] => []
  | b :: rest => rleLoop rest b 1 []

/-- `rle_decode(data)`: reads `(value, count)` pairs at even offsets and
expands each to `count` copies of `value`; a final unmatched byte
(odd-length input) is skipped because of the `i + 1 < len(data)` guard. -/
def rle_decode : List Nat → List Nat
  | v :: c :: rest => List.replicate c v ++ rle_decode rest
  | _ => []

/-- The sequence of count bytes that `rle_encode` emits for one maximal run of
length `k`: greedy 255-blocks followed by the remainder. -/
def runSplit (k : Nat) : List Nat :=
  if k ≤ 255 then [k] else 255 :: runSplit (k - 255)
termination_by k
decreasing_by simp_wf; omega

/-! ### Huffman coding (compression_demo.py lines 64-123) -/

/-- `HuffmanNode` (compression_demo.py lines 67-75): `char` is `None` on
merged internal nodes; `left`/`right` start as `None` and are set only on
merged nodes. -/
inductive HuffmanNode where
  | mk : Option Nat → Nat → Option HuffmanNode → Option HuffmanNode → HuffmanNode

instance : Inhabited HuffmanNode := ⟨HuffmanNode.mk none 0 none none⟩

def HuffmanNode.char : HuffmanNode → Option Nat
  | HuffmanNode.mk c _ _ _ => c

def HuffmanNode.freq : HuffmanNode → Nat
  | HuffmanNode.mk _ f _ _ => f

def HuffmanNode.left : HuffmanNode → Option HuffmanNode
  | HuffmanNode.mk _ _ l _ => l

def HuffmanNode.right : HuffmanNode → Option HuffmanNode
  | HuffmanNode.mk _ _ _ r => r

/-- `HuffmanNode.__lt__`: nodes compare by frequency only. -/
def hlt (a b : HuffmanNode) : Bool := a.freq < b.freq

/-- One step of `collections.Counter` construction: bump the count of `b`,
appending a fresh `(b, 1)` entry on first occurrence. -/
def addCount : List (Nat × Nat) → Nat → List (Nat × Nat)
  | [], b => [(b, 1)]
  | (k, c) :: rest, b =>
      if k = b then (k, c + 1) :: rest else (k, c) :: addCount rest b

/-- `collections.Counter(data).items()` as its insertion-ordered entry list
(keys in first-occurrence order). -/
def counter (data : List Nat) : List (Nat × Nat) := data.foldl addCount []

/-- CPython `heapq._siftdown`'s `while pos > startpos` loop: moves parents
down while `newitem` compares less, returning the final heap and position
(the final `heap[pos] = newitem` store is done by the caller `siftdown`).
The structural fuel is a strict bound on the iteration count: `pos` strictly
decreases each turn, so a fuel of `pos` (as passed by `siftdown`) never runs
out before the loop condition fails. -/
def siftdownLoop : Nat → List HuffmanNode → Nat → Nat → HuffmanNode →
    List HuffmanNode × Nat
  | 0, heap, _, pos, _ => (heap, pos)
  | fuel + 1, heap, startpos, pos, newitem =>
      if startpos < pos then
        let parentpos := (pos - 1) / 2
        let parent := heap.getD parentpos default
        if hlt newitem parent then
          siftdownLoop fuel (heap.set pos parent) startpos parentpos newitem
        else (heap, pos)
      else (heap, pos)

/-- CPython `heapq._siftdown`. -/
def siftdown (heap : List HuffmanNode) (startpos pos : Nat) : List HuffmanNode :=
  let newitem := heap.getD pos default
  let r := siftdownLoop pos heap startpos pos newitem
  r.1.set r.2 newitem

/-- CPython `heapq._siftup`'s `while childpos < endpos` loop (with
`rightpos = childpos + 1` inlined): bubbles the smaller child up, returning
the final heap and position. The structural fuel is a strict bound on the
iteration count: `endpos - pos` strictly decreases each turn, so a fuel of
`endpos - pos` (as passed by `siftup`) never runs out before the loop
condition fails. -/
def siftupLoop : Nat → List HuffmanNode → Nat → Nat → List HuffmanNode × Nat
  | 0, heap, pos, _ => (heap, pos)
  | fuel + 1, heap, pos, endpos =>
      if 2 * pos + 1 < endpos then
        let childpos :=
          if 2 * pos + 2 < endpos ∧
              ¬ hlt (heap.getD (2 * pos + 1) default) (heap.getD (2 * pos + 2) default)
          then 2 * pos + 2 else 2 * pos + 1
        siftupLoop fuel (heap.set pos (heap.getD childpos default)) childpos endpos
      else (heap, pos)

/-- CPython `heapq._siftup`: run the loop, store `newitem` at the final
position, then `_siftdown` back toward the start position. -/
def siftup (heap : List HuffmanNode) (pos : Nat) : List HuffmanNode :=
  let newitem := heap.getD pos default
  let r := siftupLoop (heap.length - pos) heap pos heap.length
  siftdown (r.1.set r.2 newitem) pos r.2

/-- CPython `heapq.heappush`: append then sift down from the new last slot. -/
def heappush (heap : List HuffmanNode) (item : HuffmanNode) : List HuffmanNode :=
  siftdown (heap ++ [item]) 0 heap.length

/-- CPython `heapq.heappop`: pop the last element; if the heap is still
non-empty, return the old root and sift the last element down from the root.
`none` models the `IndexError` on an empty heap. -/
def heappop (heap : List HuffmanNode) : Option (HuffmanNode × List HuffmanNode) :=
  match heap.getLast? with
  | none => none
  | some lastelt =>
      let rest := heap.dropLast
      if rest.isEmpty then some (lastelt, rest)
      else some (rest.getD 0 default, siftup (rest.set 0 lastelt) 0)

/-- CPython `heapq.heapify`: `for i in reversed(range(n//2)): _siftup(x, i)`. -/
def heapify (heap : List HuffmanNode) : List HuffmanNode :=
  ((List.range (heap.length / 2)).reverse).foldl (fun h i => siftup h i) heap

/-- The `while len(heap) > 1` merge loop of `build_huffman_tree`, with an
explicit fuel bound; `build_huffman_tree` passes `heap.length`, which always
suffices because each iteration shrinks the heap by exactly one element
(`buildLoop_spec`), so the `none` fuel-exhaustion / empty-pop cases are
unreachable. -/
def buildLoop : Nat → List HuffmanNode → Option HuffmanNode
  | 0, heap => if 1 < heap.length then none else heap.head?
  | fuel + 1, heap =>
      if 1 < heap.length then
        match heappop heap with
        | none => none
        | some (left, h1) =>
            match heappop h1 with
            | none => none
            | some (right, h2) =>
                buildLoop fuel
                  (heappush h2
                    (HuffmanNode.mk none (left.freq + right.freq) (some left) (some right)))
      else heap.head?

/-- `build_huffman_tree(data)`: one leaf per `Counter` entry, heapified, then
greedily merged; returns `heap[0] if heap else None`. -/
def build_huffman_tree (data : List Nat) : Option HuffmanNode :=
  let heap := heapify ((counter data).map fun p => HuffmanNode.mk (some p.1) p.2 none none)
  buildLoop heap.length heap

/-- Python-dict assignment `d[k] = v` on an insertion-ordered association
list: overwrite in place or append a fresh entry. -/
def dictSet : List (Nat × List Bool) → Nat → List Bool → List (Nat × List Bool)
  | [], k, v => [(k, v)]
  | (k', v') :: rest, k, v =>
      if k' = k then (k', v) :: rest else (k', v') :: dictSet rest k v

/-- Python-dict lookup `d[k]`; `none` models the `KeyError`. -/
def dictGet : List (Nat × List Bool) → Nat → Option (List Bool)
  | [], _ => none
  | (k', v') :: rest, k => if k' = k then some v' else dictGet rest k

/-- The `node is not None` branch of `build_codes`: record `prefix` at a
char-bearing node, then recurse left with a `0` bit and right with a `1` bit
appended (the `None`-child recursive calls return the codebook unchanged). -/
def build_codesNode : HuffmanNode → List Bool → List (Nat × List Bool) →
    List (Nat × List Bool)
  | HuffmanNode.mk c _ l r, pref, codebook =>
      let cb1 := match c with
        | some ch => dictSet codebook ch pref
        | none => codebook
      let cb2 := match l with
        | some t => build_codesNode t (pref ++ [false]) cb1
        | none => cb1
      match r with
        | some t => build_codesNode t (pref ++ [true]) cb2
        | none => cb2

/-- `build_codes(node, prefix, codebook)`: returns the codebook unchanged on
`None`, otherwise processes the node. -/
def build_codes : Option HuffmanNode → List Bool → List (Nat × List Bool) →
    List (Nat × List Bool)
  | none, _, codebook => codebook
  | some t, pref, codebook => build_codesNode t pref codebook

/-- `int(bits, 2)`: value of a bit string read most-significant-bit first. -/
def bitsVal (bits : List Bool) : Nat := bits.foldl (fun n b => 2 * n + cond b 1 0) 0

/-- `value.to_bytes(k, 'big')`: `k` bytes, most significant first. -/
def natToBytes : Nat → Nat → List Nat
  | 0, _ => []
  | k + 1, v => natToBytes k (v / 256) ++ [v % 256]

/-- The bit-string-to-bytes tail of `huffman_encode`: right-pad with zero
bits to a byte boundary as `padding = 8 - len % 8; if padding != 8: ...`,
then pack via `int(bits, 2).to_bytes(len(bits) // 8, 'big')`. `none` models
the exceptions: `ValueError` from `int('', 2)` on an empty bit string and
`OverflowError` from `to_bytes` (the latter is provably unreachable). -/
def packEncoded (bits : List Bool) (codes : List (Nat × List Bool)) :
    Option (List Nat × List (Nat × List Bool)) :=
  let padding := 8 - bits.length % 8
  let encodedBits :=
    if padding ≠ 8 then bits ++ List.replicate padding false else bits
  if encodedBits.length = 0 then none
  else if bitsVal encodedBits < 256 ^ (encodedBits.length / 8) then
    some (natToBytes (encodedBits.length / 8) (bitsVal encodedBits), codes)
  else none

/-- `huffman_encode(data)`: build the tree and code table, concatenate the
codes of the input bytes (`none` models the `KeyError` on a missing code),
and pack the bit string. -/
def huffman_encode (data : List Nat) : Option (List Nat × List (Nat × List Bool)) :=
  match data with
  | [] => some ([], [])
  | _ :: _ =>
      let codes := build_codes (build_huffman_tree data) [] []
      match data.mapM (fun b => dictGet codes b) with
      | none => none
      | some bitsList => packEncoded bitsList.flatten codes

/-- Chars held at the char-bearing nodes of a tree, in traversal order. -/
def leafChars : HuffmanNode → List Nat
  | HuffmanNode.mk c _ l r =>
      (match c with | some ch => [ch] | none => []) ++
      (match l with | some t => leafChars t | none => []) ++
      (match r with | some t => leafChars t | none => [])

/-- Well-formed nodes as `build_huffman_tree` creates them: original leaves
carry a char and no children; merged nodes carry no char and two children. -/
inductive WFNode : HuffmanNode → Prop where
  | leaf (c f : Nat) : WFNode (HuffmanNode.mk (some c) f none none)
  | node (f : Nat) (l r : HuffmanNode) : WFNode l → WFNode r →
      WFNode (HuffmanNode.mk none f (some l) (some r))

/-- The `(char, code)` entries `build_codes` emits for a subtree at a given
bit-string position, without the dict plumbing. -/
def codesOf : HuffmanNode → List Bool → List (Nat × List Bool)
  | HuffmanNode.mk c _ l r, pref =>
      (match c with | some ch => [(ch, pref)] | none => []) ++
      (match l with | some t => codesOf t (pref ++ [false]) | none => []) ++
      (match r with | some t => codesOf t (pref ++ [true]) | none => [])

/-- The 8 bits of one byte, most significant first (spec-side, §4.2). -/
def byteBits (b : Nat) : List Bool := (List.range 8).map fun i => (b / 2 ^ (7 - i)) % 2 == 1

/-- A packed byte stream as its bit string, 8 bits per byte, MSB first. -/
def bytesToBits (bytes : List Nat) : List Bool := bytes.flatMap byteBits

/-- Spec-side packing (§4.2): group a bit string into bytes of 8 bits,
most-significant-bit first (a trailing group shorter than 8 bits is packed
as is; the encoder only ever produces multiples of 8). -/
def pack8 : List Bool → List Nat
  | b0 :: b1 :: b2 :: b3 :: b4 :: b5 :: b6 :: b7 :: rest =>
      bitsVal [b0, b1, b2, b3, b4, b5, b6, b7] :: pack8 rest
  | [] => []
  | bits => [bitsVal bits]

/-- Longest-prefix table match: first entry of the code table whose code is
a prefix of the bit stream, together with the remaining stream. -/
def findCode : List (Nat × List Bool) → List Bool → Option (Nat × List Bool)
  | [], _ => none
  | (c, code) :: rest, bits =>
      if code.isPrefixOf bits then some (c, bits.drop code.length)
      else findCode rest bits

/-- Modelled from the spec (§4.2): emit one symbol per prefix match,
stopping after exactly `n` symbols so that the zero padding is ignored. -/
def decodeBits (tbl : List (Nat × List Bool)) : Nat → List Bool → Option (List Nat)
  | 0, _ => some []
  | n + 1, bits =>
      match findCode tbl bits with
      | none => none
      | some (c, rest) =>
          match decodeBits tbl n rest with
          | none => none
          | some out => some (c :: out)

/-- Modelled from the spec: `Huffman.decode` is absent from the repository;
§4.2 specifies it as walking the bitstream doing a longest-prefix match
against the code table, emitting a byte per match, and stopping after the
original symbol count. -/
def huffman_decode (bytes : List Nat) (tbl : List (Nat × List Bool)) (n : Nat) :
    Option (List Nat) :=
  decodeBits tbl n (bytesToBits bytes)

/-! ### Heap permutation facts -/

theorem set_getD_self {α : Type} :
    ∀ (l : List α) (i : Nat) (d : α), i < l.length → l.set i (l.getD i d) = l
  | [], _, _, h => by simp at h
  | x :: xs, 0, d, _ => by simp
  | x :: xs, i + 1, d, h => by
      simp only [List.getD_cons_succ, List.set_cons_succ]
      rw [set_getD_self xs i d (by simpa using h)]

theorem getD_set_self {α : Type} (l : List α) (i : Nat) (a d : α)
    (h : i < l.length) : (l.set i a).getD i d = a := by
  rw [List.getD_eq_getElem?_getD, List.getElem?_set_self (by simpa using h)]
  rfl

/-- Replacing position `k` by `a` while pulling the old entry to the front is
a permutation of pushing `a` to the front. -/
theorem getD_set_swap_perm {α : Type} :
    ∀ (xs : List α) (k : Nat) (a d : α), k < xs.length →
      List.Perm (xs.getD k d :: xs.set k a) (a :: xs)
  | [], _, _, _, h => by simp at h
  | x :: xs, 0, a, d, _ => by
      simp only [List.getD_cons_zero, List.set_cons_zero]
      exact List.Perm.swap a x xs
  | x :: xs, k + 1, a, d, h => by
      simp only [List.getD_cons_succ, List.set_cons_succ]
      refine List.Perm.trans (List.Perm.swap x (xs.getD k d) (xs.set k a)) ?_
      refine List.Perm.trans ((getD_set_swap_perm xs k a d (by simpa using h)).cons x) ?_
      exact List.Perm.swap a x xs

/-- Writing `l[j]` into slot `i` and then `a` into slot `j` permutes to just
writing `a` into slot `i`. -/
theorem set_set_swap_perm {α : Type} (l : List α) :
    ∀ (i j : Nat) (a d : α), i < l.length → j < l.length → i ≠ j →
      List.Perm ((l.set i (l.getD j d)).set j a) (l.set i a) := by
  induction l with
  | nil => intro i j a d hi _ _; simp at hi
  | cons x xs ih =>
      intro i j a d hi hj hij
      match i, j with
      | 0, 0 => exact absurd rfl hij
      | 0, j + 1 =>
          simp only [List.getD_cons_succ, List.set_cons_zero, List.set_cons_succ]
          exact getD_set_swap_perm xs j a d (by simpa using hj)
      | i + 1, 0 =>
          simp only [List.getD_cons_zero, List.set_cons_succ, List.set_cons_zero]
          have h := getD_set_swap_perm (xs.set i a) i x d (by simpa using hi)
          rw [getD_set_self xs i a d (by simpa using hi), List.set_set] at h
          exact h
      | i + 1, j + 1 =>
          simp only [List.getD_cons_succ, List.set_cons_succ]
          exact (ih i j a d (by simpa using hi) (by simpa using hj) (by omega)).cons x

/-- `siftdownLoop` invariant: with enough fuel, the final position is in
range, the length is unchanged, and writing `newitem` at the final position
permutes to writing it at the start position. -/
theorem siftdownLoop_spec (newitem : HuffmanNode) :
    ∀ (fuel pos : Nat) (heap : List HuffmanNode) (startpos : Nat),
      pos ≤ fuel → pos < heap.length →
      (siftdownLoop fuel heap startpos pos newitem).2 < heap.length ∧
      (siftdownLoop fuel heap startpos pos newitem).1.length = heap.length ∧
      List.Perm
        ((siftdownLoop fuel heap startpos pos newitem).1.set
          (siftdownLoop fuel heap startpos pos newitem).2 newitem)
        (heap.set pos newitem) := by
  intro fuel
  induction fuel with
  | zero =>
      intro pos heap startpos hfuel hpos
      exact ⟨hpos, rfl, List.Perm.refl _⟩
  | succ fuel ih =>
      intro pos heap startpos hfuel hpos
      simp only [siftdownLoop]
      by_cases hs : startpos < pos
      · rw [if_pos hs]
        by_cases hc : hlt newitem (heap.getD ((pos - 1) / 2) default) = true
        · rw [if_pos hc]
          have hpl : (pos - 1) / 2 <
              (heap.set pos (heap.getD ((pos - 1) / 2) default)).length := by
            rw [List.length_set]; omega
          obtain ⟨h1, h2, h3⟩ := ih ((pos - 1) / 2)
            (heap.set pos (heap.getD ((pos - 1) / 2) default)) startpos (by omega) hpl
          rw [List.length_set] at h1 h2
          refine ⟨h1, h2, h3.trans ?_⟩
          exact set_set_swap_perm heap pos ((pos - 1) / 2) newitem default hpos
            (by omega) (by omega)
        · rw [if_neg hc]
          exact ⟨hpos, rfl, List.Perm.refl _⟩
      · rw [if_neg hs]
        exact ⟨hpos, rfl, List.Perm.refl _⟩

/-- `siftdown` permutes the heap. -/
theorem siftdown_perm (heap : List HuffmanNode) (startpos pos : Nat)
    (h : pos < heap.length) : List.Perm (siftdown heap startpos pos) heap := by
  show List.Perm
    ((siftdownLoop pos heap startpos pos (heap.getD pos default)).1.set
      (siftdownLoop pos heap startpos pos (heap.getD pos default)).2
      (heap.getD pos default)) heap
  obtain ⟨h1, h2, h3⟩ :=
    siftdownLoop_spec (heap.getD pos default) pos pos heap startpos le_rfl h
  exact h3.trans (by rw [set_getD_self heap pos default h])

theorem siftdown_length (heap : List HuffmanNode) (startpos pos : Nat)
    (h : pos < heap.length) : (siftdown heap startpos pos).length = heap.length :=
  (siftdown_perm heap startpos pos h).length_eq

/-- `siftupLoop` invariant: with enough fuel, final position in range,
length unchanged, and writing any item at the final position permutes to
writing it at `pos`. -/
theorem siftupLoop_spec (endpos : Nat) :
    ∀ (gas pos : Nat) (heap : List HuffmanNode), endpos - pos ≤ gas →
      pos < heap.length → endpos ≤ heap.length →
      (siftupLoop gas heap pos endpos).2 < heap.length ∧
      (siftupLoop gas heap pos endpos).1.length = heap.length ∧
      ∀ x : HuffmanNode,
        List.Perm ((siftupLoop gas heap pos endpos).1.set (siftupLoop gas heap pos endpos).2 x)
          (heap.set pos x) := by
  intro gas
  induction gas with
  | zero =>
      intro pos heap hgas hpos hend
      exact ⟨hpos, rfl, fun x => List.Perm.refl _⟩
  | succ gas ih =>
      intro pos heap hgas hpos hend
      simp only [siftupLoop]
      by_cases hchild : 2 * pos + 1 < endpos
      · rw [if_pos hchild]
        by_cases hbr : 2 * pos + 2 < endpos ∧
            ¬ hlt (heap.getD (2 * pos + 1) default) (heap.getD (2 * pos + 2) default) = true
        · rw [if_pos hbr]
          have hlen : (heap.set pos (heap.getD (2 * pos + 2) default)).length =
              heap.length := List.length_set heap pos _
          obtain ⟨h1, h2, h3⟩ := ih (2 * pos + 2)
            (heap.set pos (heap.getD (2 * pos + 2) default)) (by omega)
            (by rw [hlen]; omega) (by rw [hlen]; omega)
          rw [hlen] at h1 h2
          refine ⟨h1, h2, fun x => (h3 x).trans ?_⟩
          exact set_set_swap_perm heap pos (2 * pos + 2) x default hpos (by omega) (by omega)
        · rw [if_neg hbr]
          have hlen : (heap.set pos (heap.getD (2 * pos + 1) default)).length =
              heap.length := List.length_set heap pos _
          obtain ⟨h1, h2, h3⟩ := ih (2 * pos + 1)
            (heap.set pos (heap.getD (2 * pos + 1) default)) (by omega)
            (by rw [hlen]; omega) (by rw [hlen]; omega)
          rw [hlen] at h1 h2
          refine ⟨h1, h2, fun x => (h3 x).trans ?_⟩
          exact set_set_swap_perm heap pos (2 * pos + 1) x default hpos (by omega) (by omega)
      · rw [if_neg hchild]
        exact ⟨hpos, rfl, fun x => List.Perm.refl _⟩

/-- `siftup` permutes the heap. -/
theorem siftup_perm (heap : List HuffmanNode) (pos : Nat) (h : pos < heap.length) :
    List.Perm (siftup heap pos) heap := by
  show List.Perm
    (siftdown
      ((siftupLoop (heap.length - pos) heap pos heap.length).1.set
        (siftupLoop (heap.length - pos) heap pos heap.length).2
        (heap.getD pos default)) pos
      (siftupLoop (heap.length - pos) heap pos heap.length).2) heap
  obtain ⟨h1, h2, h3⟩ := siftupLoop_spec heap.length (heap.length - pos) pos heap
    le_rfl h le_rfl
  have hperm := h3 (heap.getD pos default)
  rw [set_getD_self heap pos default h] at hperm
  have hsd := siftdown_perm
    ((siftupLoop (heap.length - pos) heap pos heap.length).1.set
      (siftupLoop (heap.length - pos) heap pos heap.length).2
      (heap.getD pos default)) pos (siftupLoop (heap.length - pos) heap pos heap.length).2
    (by rw [List.length_set, h2]; exact h1)
  exact hsd.trans hperm

theorem siftup_length (heap : List HuffmanNode) (pos : Nat) (h : pos < heap.length) :
    (siftup heap pos).length = heap.length :=
  (siftup_perm heap pos h).length_eq

/-- `heappush` permutes to pushing the item on the front. -/
theorem heappush_perm (heap : List HuffmanNode) (item : HuffmanNode) :
    List.Perm (heappush heap item) (item :: heap) := by
  have h := siftdown_perm (heap ++ [item]) 0 heap.length (by simp)
  exact h.trans (List.perm_append_singleton item heap)

/-- `heappop` returns an element and a residual heap that together permute
to the input heap. -/
theorem heappop_perm (heap : List HuffmanNode) (x : HuffmanNode)
    (h' : List HuffmanNode) (h : heappop heap = some (x, h')) :
    List.Perm (x :: h') heap := by
  unfold heappop at h
  split at h
  · exact absurd h (by simp)
  · rename_i lastelt hlast
    have hsplit : heap.dropLast ++ [lastelt] = heap :=
      List.dropLast_append_getLast? lastelt hlast
    by_cases hempty : heap.dropLast.isEmpty
    · rw [if_pos hempty] at h
      cases h
      have hnil : heap.dropLast = [] := List.isEmpty_iff.mp hempty
      rw [hnil] at hsplit
      rw [hnil, ← hsplit]
      simp
    · rw [if_neg hempty] at h
      cases h
      have hdne : heap.dropLast ≠ [] := fun hc => hempty (by simp [hc])
      have hdlen : 0 < heap.dropLast.length := List.length_pos.mpr hdne
      have hperm1 : List.Perm (siftup (heap.dropLast.set 0 lastelt) 0)
          (heap.dropLast.set 0 lastelt) :=
        siftup_perm _ 0 (by rw [List.length_set]; omega)
      have hperm2 : List.Perm
          (heap.dropLast.getD 0 default :: heap.dropLast.set 0 lastelt)
          (lastelt :: heap.dropLast) :=
        getD_set_swap_perm heap.dropLast 0 lastelt default hdlen
      refine List.Perm.trans (hperm1.cons _) ?_
      refine List.Perm.trans hperm2 ?_
      refine List.Perm.trans (List.perm_append_singleton _ _).symm ?_
      rw [hsplit]

/-- `heapify` permutes the heap. -/
theorem heapify_perm (heap : List HuffmanNode) :
    List.Perm (heapify heap) heap := by
  unfold heapify
  have hgen : ∀ (idxs : List Nat) (h : List HuffmanNode),
      (∀ i ∈ idxs, i < h.length) →
      List.Perm (idxs.foldl (fun acc i => siftup acc i) h) h := by
    intro idxs
    induction idxs with
    | nil => intro h _; exact List.Perm.refl _
    | cons i idxs ih =>
        intro h hbound
        have hi : i < h.length := hbound i (List.mem_cons_self i idxs)
        have h1 : List.Perm (siftup h i) h := siftup_perm h i hi
        have hlen : (siftup h i).length = h.length := h1.length_eq
        refine List.Perm.trans (ih (siftup h i) (fun j hj => ?_)) h1
        rw [hlen]
        exact hbound j (List.mem_cons_of_mem i hj)
  refine hgen _ heap ?_
  intro i hi
  rw [List.mem_reverse, List.mem_range] at hi
  omega

/-! ### Counter and tree construction -/

theorem addCount_fst (b : Nat) :
    ∀ acc : List (Nat × Nat),
      (addCount acc b).map Prod.fst =
        if b ∈ acc.map Prod.fst then acc.map Prod.fst
        else acc.map Prod.fst ++ [b]
  | [] => by simp [addCount]
  | (k, c) :: rest => by
      simp only [addCount]
      by_cases hk : k = b
      · subst hk
        simp
      · rw [if_neg hk]
        simp only [List.map_cons, addCount_fst b rest]
        by_cases hb : b ∈ rest.map Prod.fst
        · rw [if_pos hb, if_pos (by simp [hb])]
        · have hnb : b ∉ (k :: rest.map Prod.fst) := by
            simp only [List.mem_cons]
            rintro (rfl | hmem)
            · exact hk rfl
            · exact hb hmem
          rw [if_neg hb, if_neg hnb, List.cons_append]

theorem foldl_addCount_fst_nodup :
    ∀ (data : List Nat) (acc : List (Nat × Nat)), (acc.map Prod.fst).Nodup →
      ((data.foldl addCount acc).map Prod.fst).Nodup
  | [], acc, h => h
  | b :: rest, acc, h => by
      rw [List.foldl_cons]
      refine foldl_addCount_fst_nodup rest (addCount acc b) ?_
      rw [addCount_fst]
      by_cases hb : b ∈ acc.map Prod.fst
      · rwa [if_pos hb]
      · rw [if_neg hb]
        simp [List.nodup_append, h, hb]

/-- C4 support: the keys of `Counter(data)` carry no duplicates. -/
theorem counter_fst_nodup (data : List Nat) :
    ((counter data).map Prod.fst).Nodup :=
  foldl_addCount_fst_nodup data [] (by simp)

theorem foldl_addCount_fst_mem (x : Nat) :
    ∀ (data : List Nat) (acc : List (Nat × Nat)),
      (x ∈ (data.foldl addCount acc).map Prod.fst ↔ x ∈ acc.map Prod.fst ∨ x ∈ data)
  | [], acc => by simp
  | b :: rest, acc => by
      rw [List.foldl_cons, foldl_addCount_fst_mem x rest (addCount acc b)]
      rw [addCount_fst]
      by_cases hb : b ∈ acc.map Prod.fst
      · rw [if_pos hb]
        constructor
        · rintro (h | h)
          · exact Or.inl h
          · exact Or.inr (List.mem_cons_of_mem b h)
        · rintro (h | h)
          · exact Or.inl h
          · rcases List.mem_cons.mp h with rfl | h
            · exact Or.inl hb
            · exact Or.inr h
      · rw [if_neg hb]
        simp only [List.mem_append, List.mem_singleton, List.mem_cons]
        tauto

/-- C4 support: the keys of `Counter(data)` are exactly the bytes of `data`. -/
theorem counter_fst_mem (data : List Nat) (x : Nat) :
    x ∈ (counter data).map Prod.fst ↔ x ∈ data := by
  rw [counter, foldl_addCount_fst_mem x data []]
  simp

theorem counter_ne_nil (data : List Nat) (hne : data ≠ []) : counter data ≠ [] := by
  obtain ⟨b, hb⟩ := List.exists_mem_of_ne_nil data hne
  intro hc
  have := (counter_fst_mem data b).mpr hb
  rw [hc] at this
  simp at this

theorem leafChars_leaf (c f : Nat) :
    leafChars (HuffmanNode.mk (some c) f none none) = [c] := rfl

theorem leafChars_node (f : Nat) (l r : HuffmanNode) :
    leafChars (HuffmanNode.mk none f (some l) (some r)) =
      leafChars l ++ leafChars r := by
  simp [leafChars]

/-- A non-empty heap pops successfully. -/
theorem heappop_some (heap : List HuffmanNode) (h : heap ≠ []) :
    ∃ x h', heappop heap = some (x, h') := by
  by_cases hempty : heap.dropLast.isEmpty
  · refine ⟨heap.getLast h, heap.dropLast, ?_⟩
    unfold heappop
    rw [List.getLast?_eq_getLast heap h]
    exact if_pos hempty
  · refine ⟨heap.dropLast.getD 0 default,
      siftup (heap.dropLast.set 0 (heap.getLast h)) 0, ?_⟩
    unfold heappop
    rw [List.getLast?_eq_getLast heap h]
    exact if_neg hempty

/-- The merge loop, run with sufficient fuel on a non-empty heap of
well-formed nodes, returns a well-formed root holding exactly the leaf chars
of the whole heap. -/
theorem buildLoop_spec :
    ∀ (fuel : Nat) (heap : List HuffmanNode), heap.length ≤ fuel + 1 →
      1 ≤ heap.length → (∀ t ∈ heap, WFNode t) →
      ∃ root, buildLoop fuel heap = some root ∧ WFNode root ∧
        List.Perm (leafChars root) ((heap.map leafChars).flatten) := by
  intro fuel
  induction fuel with
  | zero =>
      intro heap hlen h1 hwf
      have hone : heap.length = 1 := by omega
      obtain ⟨t, rfl⟩ := List.length_eq_one.mp hone
      exact ⟨t, by simp [buildLoop], hwf t (by simp), by simp⟩
  | succ fuel ih =>
      intro heap hlen h1 hwf
      by_cases hgt : 1 < heap.length
      · have hne : heap ≠ [] := by
          intro hc; rw [hc] at h1; simp at h1
        obtain ⟨x1, h1', hpop1⟩ := heappop_some heap hne
        have hperm1 : List.Perm (x1 :: h1') heap := heappop_perm heap x1 h1' hpop1
        have hlen1 : h1'.length + 1 = heap.length := by
          simpa using hperm1.length_eq
        have hne1 : h1' ≠ [] := by
          intro hc
          rw [hc] at hlen1
          simp at hlen1
          omega
        obtain ⟨x2, h2', hpop2⟩ := heappop_some h1' hne1
        have hperm2 : List.Perm (x2 :: h2') h1' := heappop_perm h1' x2 h2' hpop2
        have hlen2 : h2'.length + 1 = h1'.length := by
          simpa using hperm2.length_eq
        have hwf1 : WFNode x1 := hwf x1 (hperm1.subset (List.mem_cons_self x1 h1'))
        have hwf2 : WFNode x2 :=
          hwf x2 (hperm1.subset (List.mem_cons_of_mem x1
            (hperm2.subset (List.mem_cons_self x2 h2'))))
        have hwfm : WFNode (HuffmanNode.mk none (x1.freq + x2.freq) (some x1) (some x2)) :=
          WFNode.node _ x1 x2 hwf1 hwf2
        have hpushperm := heappush_perm h2'
          (HuffmanNode.mk none (x1.freq + x2.freq) (some x1) (some x2))
        have hpushlen : (heappush h2'
            (HuffmanNode.mk none (x1.freq + x2.freq) (some x1) (some x2))).length =
            h2'.length + 1 := by
          simpa using hpushperm.length_eq
        have hwfnew : ∀ t ∈ heappush h2'
            (HuffmanNode.mk none (x1.freq + x2.freq) (some x1) (some x2)), WFNode t := by
          intro t ht
          rcases List.mem_cons.mp (hpushperm.subset ht) with rfl | ht'
          · exact hwfm
          · exact hwf t (hperm1.subset (List.mem_cons_of_mem x1
              (hperm2.subset (List.mem_cons_of_mem x2 ht'))))
        obtain ⟨root, hroot, hwfroot, hperm⟩ := ih
          (heappush h2' (HuffmanNode.mk none (x1.freq + x2.freq) (some x1) (some x2)))
          (by omega) (by omega) hwfnew
        refine ⟨root, ?_, hwfroot, ?_⟩
        · simp only [buildLoop]
          rw [if_pos hgt]
          simp only [hpop1, hpop2]
          exact hroot
        · refine hperm.trans ?_
          refine List.Perm.trans ((hpushperm.map leafChars).flatten) ?_
          simp only [List.map_cons, List.flatten_cons, leafChars_node]
          have hside : List.Perm ((heap.map leafChars).flatten)
              (leafChars x1 ++ (leafChars x2 ++ (h2'.map leafChars).flatten)) := by
            refine List.Perm.trans ((hperm1.symm.map leafChars).flatten) ?_
            simp only [List.map_cons, List.flatten_cons]
            refine List.Perm.append_left (leafChars x1) ?_
            refine List.Perm.trans ((hperm2.symm.map leafChars).flatten) ?_
            simp [List.map_cons, List.flatten_cons]
          refine List.Perm.trans ?_ hside.symm
          simp [List.append_assoc]
      · have hone : heap.length = 1 := by omega
        obtain ⟨t, rfl⟩ := List.length_eq_one.mp hone
        exact ⟨t, by simp [buildLoop], hwf t (by simp), by simp⟩

theorem flatten_map_singleton_fst :
    ∀ l : List (Nat × Nat), (l.map fun p => [p.1]).flatten = l.map Prod.fst
  | [] => rfl
  | p :: rest => by
      simp [flatten_map_singleton_fst rest]

/-- `build_huffman_tree` on a non-empty buffer returns a well-formed tree
whose leaf chars are a permutation of the distinct bytes of the buffer. -/
theorem build_huffman_tree_spec (data : List Nat) (hne : data ≠ []) :
    ∃ root, build_huffman_tree data = some root ∧ WFNode root ∧
      List.Perm (leafChars root) ((counter data).map Prod.fst) := by
  have hcne : counter data ≠ [] := counter_ne_nil data hne
  have hlen0 : 1 ≤ ((counter data).map fun p =>
      HuffmanNode.mk (some p.1) p.2 none none).length := by
    simp only [List.length_map]
    exact List.length_pos.mpr hcne
  have hhp := heapify_perm ((counter data).map fun p =>
    HuffmanNode.mk (some p.1) p.2 none none)
  have hlen1 : (heapify ((counter data).map fun p =>
      HuffmanNode.mk (some p.1) p.2 none none)).length =
      ((counter data).map fun p => HuffmanNode.mk (some p.1) p.2 none none).length :=
    hhp.length_eq
  have hwf : ∀ t ∈ heapify ((counter data).map fun p =>
      HuffmanNode.mk (some p.1) p.2 none none), WFNode t := by
    intro t ht
    have := hhp.subset ht
    obtain ⟨p, _, rfl⟩ := List.mem_map.mp this
    exact WFNode.leaf p.1 p.2
  obtain ⟨root, hroot, hwfroot, hperm⟩ := buildLoop_spec
    (heapify ((counter data).map fun p =>
      HuffmanNode.mk (some p.1) p.2 none none)).length
    (heapify ((counter data).map fun p => HuffmanNode.mk (some p.1) p.2 none none))
    (by omega) (by omega) hwf
  refine ⟨root, hroot, hwfroot, ?_⟩
  refine hperm.trans ?_
  refine List.Perm.trans ((hhp.map leafChars).flatten) ?_
  rw [List.map_map]
  have : (leafChars ∘ fun p : Nat × Nat => HuffmanNode.mk (some p.1) p.2 none none) =
      fun p : Nat × Nat => [p.1] := by
    funext p
    exact leafChars_leaf p.1 p.2
  rw [this, flatten_map_singleton_fst]

/-! ### Code table construction -/

theorem codesOf_leaf (c f : Nat) (pref : List Bool) :
    codesOf (HuffmanNode.mk (some c) f none none) pref = [(c, pref)] := rfl

theorem codesOf_node (f : Nat) (l r : HuffmanNode) (pref : List Bool) :
    codesOf (HuffmanNode.mk none f (some l) (some r)) pref =
      codesOf l (pref ++ [false]) ++ codesOf r (pref ++ [true]) := by
  simp [codesOf]

theorem dictSet_not_mem (k : Nat) (v : List Bool) :
    ∀ cb : List (Nat × List Bool), k ∉ cb.map Prod.fst →
      dictSet cb k v = cb ++ [(k, v)]
  | [], _ => rfl
  | (k', v') :: rest, h => by
      have hk : ¬ k' = k := by
        intro hc
        exact h (by simp [hc])
      simp only [dictSet]
      rw [if_neg hk, dictSet_not_mem k v rest (fun hc => h (by simp [hc]))]
      simp

/-- The keys recorded for a well-formed subtree are exactly its leaf chars. -/
theorem codesOf_fst {t : HuffmanNode} (hwf : WFNode t) :
    ∀ pref, (codesOf t pref).map Prod.fst = leafChars t := by
  induction hwf with
  | leaf c f => intro pref; rfl
  | node f l r hl hr ihl ihr =>
      intro pref
      rw [codesOf_node, List.map_append, ihl, ihr, leafChars_node]

/-- On a well-formed tree with distinct leaf chars and no key collisions with
the incoming codebook, `build_codes` appends exactly the `codesOf` entries. -/
theorem build_codesNode_eq {t : HuffmanNode} (hwf : WFNode t) :
    ∀ (pref : List Bool) (cb : List (Nat × List Bool)),
      (leafChars t).Nodup →
      (∀ k ∈ cb.map Prod.fst, k ∉ leafChars t) →
      build_codesNode t pref cb = cb ++ codesOf t pref := by
  induction hwf with
  | leaf c f =>
      intro pref cb _ hdisj
      have hc : c ∉ cb.map Prod.fst := by
        intro hc
        exact hdisj c hc (by rw [leafChars_leaf]; exact List.mem_singleton_self c)
      show dictSet cb c pref = cb ++ codesOf (HuffmanNode.mk (some c) f none none) pref
      rw [codesOf_leaf, dictSet_not_mem c pref cb hc]
  | node f l r hl hr ihl ihr =>
      intro pref cb hnd hdisj
      rw [leafChars_node] at hnd hdisj
      have hndl : (leafChars l).Nodup := hnd.of_append_left
      have hndr : (leafChars r).Nodup := hnd.of_append_right
      have hdj : List.Disjoint (leafChars l) (leafChars r) :=
        List.disjoint_of_nodup_append hnd
      show build_codesNode r (pref ++ [true])
          (build_codesNode l (pref ++ [false]) cb) =
        cb ++ codesOf (HuffmanNode.mk none f (some l) (some r)) pref
      rw [ihl (pref ++ [false]) cb hndl
        (fun k hk hin => hdisj k hk (List.mem_append_left _ hin))]
      rw [ihr (pref ++ [true]) (cb ++ codesOf l (pref ++ [false])) hndr ?_]
      · rw [codesOf_node, List.append_assoc]
      · intro k hk hin
        rw [List.map_append, List.mem_append] at hk
        rcases hk with hk | hk
        · exact hdisj k hk (List.mem_append_right _ hin)
        · rw [codesOf_fst hl] at hk
          exact hdj hk hin

theorem build_codes_root {t : HuffmanNode} (hwf : WFNode t)
    (hnd : (leafChars t).Nodup) :
    build_codes (some t) [] [] = codesOf t [] := by
  show build_codesNode t [] [] = codesOf t []
  rw [build_codesNode_eq hwf [] [] hnd (by simp)]
  simp

/-- Every entry of a subtree's code list extends the subtree's position. -/
theorem codesOf_shape {t : HuffmanNode} (hwf : WFNode t) :
    ∀ (pref : List Bool) (p : Nat × List Bool), p ∈ codesOf t pref →
      ∃ s, p.2 = pref ++ s := by
  induction hwf with
  | leaf c f =>
      intro pref p hp
      rw [codesOf_leaf, List.mem_singleton] at hp
      exact ⟨[], by rw [hp]; simp⟩
  | node f l r hl hr ihl ihr =>
      intro pref p hp
      rw [codesOf_node, List.mem_append] at hp
      rcases hp with hp | hp
      · obtain ⟨s, hs⟩ := ihl (pref ++ [false]) p hp
        exact ⟨false :: s, by rw [hs]; simp⟩
      · obtain ⟨s, hs⟩ := ihr (pref ++ [true]) p hp
        exact ⟨true :: s, by rw [hs]; simp⟩

/-- C4 core, prefix-freeness: in a well-formed tree, the code of one char is
never a prefix of the code of a different char. -/
theorem codesOf_prefix_free {t : HuffmanNode} (hwf : WFNode t) :
    ∀ (pref : List Bool) (p q : Nat × List Bool),
      p ∈ codesOf t pref → q ∈ codesOf t pref → p.1 ≠ q.1 →
      ¬ (p.2 <+: q.2) := by
  induction hwf with
  | leaf c f =>
      intro pref p q hp hq hne
      rw [codesOf_leaf, List.mem_singleton] at hp hq
      exact absurd (by rw [hp, hq]) hne
  | node f l r hl hr ihl ihr =>
      intro pref p q hp hq hne hpre
      rw [codesOf_node, List.mem_append] at hp hq
      rcases hp with hp | hp <;> rcases hq with hq | hq
      · exact ihl _ p q hp hq hne hpre
      · obtain ⟨s1, hs1⟩ := codesOf_shape hl _ p hp
        obtain ⟨s2, hs2⟩ := codesOf_shape hr _ q hq
        rw [hs1, hs2, List.append_assoc, List.append_assoc,
          List.prefix_append_right_inj] at hpre
        obtain ⟨u, hu⟩ := hpre
        simp at hu
      · obtain ⟨s1, hs1⟩ := codesOf_shape hr _ p hp
        obtain ⟨s2, hs2⟩ := codesOf_shape hl _ q hq
        rw [hs1, hs2, List.append_assoc, List.append_assoc,
          List.prefix_append_right_inj] at hpre
        obtain ⟨u, hu⟩ := hpre
        simp at hu
      · exact ihr _ p q hp hq hne hpre

/-! ### Dict lookup facts -/

theorem dictGet_of_mem :
    ∀ (cb : List (Nat × List Bool)) (k : Nat) (v : List Bool),
      ((cb.map Prod.fst).Nodup) → (k, v) ∈ cb → dictGet cb k = some v
  | [], _, _, _, h => by simp at h
  | (k', v') :: rest, k, v, hnd, h => by
      rcases List.mem_cons.mp h with heq | hmem
      · obtain ⟨rfl, rfl⟩ := Prod.mk.injEq .. ▸ heq
        simp [dictGet]
      · have hk : ¬ k' = k := by
          rintro rfl
          rw [List.map_cons] at hnd
          exact (List.nodup_cons.mp hnd).1
            (List.mem_map.mpr ⟨(k', v), hmem, rfl⟩)
        simp only [dictGet]
        rw [if_neg hk]
        exact dictGet_of_mem rest k v (List.nodup_cons.mp (List.map_cons _ _ _ ▸ hnd)).2 hmem

theorem dictGet_mem :
    ∀ (cb : List (Nat × List Bool)) (k : Nat) (v : List Bool),
      dictGet cb k = some v → (k, v) ∈ cb
  | [], _, _, h => by simp [dictGet] at h
  | (k', v') :: rest, k, v, h => by
      simp only [dictGet] at h
      by_cases hk : k' = k
      · rw [if_pos hk] at h
        subst hk
        obtain rfl := Option.some_inj.mp h
        exact List.mem_cons_self _ _
      · rw [if_neg hk] at h
        exact List.mem_cons_of_mem _ (dictGet_mem rest k v h)

theorem dictGet_isSome_iff :
    ∀ (cb : List (Nat × List Bool)) (k : Nat),
      (dictGet cb k).isSome = true ↔ k ∈ cb.map Prod.fst
  | [], k => by simp [dictGet]
  | (k', v') :: rest, k => by
      simp only [dictGet, List.map_cons, List.mem_cons]
      by_cases hk : k' = k
      · rw [if_pos hk]
        simp [hk.symm]
      · rw [if_neg hk]
        rw [dictGet_isSome_iff rest k]
        constructor
        · exact Or.inr
        · rintro (rfl | h)
          · exact absurd rfl hk
          · exact h

theorem mapM_dictGet_eq_some (codes : List (Nat × List Bool)) (f : Nat → List Bool) :
    ∀ data : List Nat, (∀ b ∈ data, dictGet codes b = some (f b)) →
      data.mapM (fun b => dictGet codes b) = some (data.map f)
  | [], _ => rfl
  | b :: rest, h => by
      rw [List.mapM_cons, h b (List.mem_cons_self b rest),
        mapM_dictGet_eq_some codes f rest (fun x hx => h x (List.mem_cons_of_mem b hx))]
      rfl

/-! ### Bit packing arithmetic -/

theorem bitsVal_foldl :
    ∀ (bs : List Bool) (n : Nat),
      bs.foldl (fun n b => 2 * n + cond b 1 0) n = n * 2 ^ bs.length + bitsVal bs
  | [], n => by simp [bitsVal]
  | b :: bs, n => by
      show bs.foldl _ (2 * n + cond b 1 0) = n * 2 ^ (b :: bs).length + bitsVal (b :: bs)
      rw [bitsVal_foldl bs (2 * n + cond b 1 0)]
      have hb : bitsVal (b :: bs) = cond b 1 0 * 2 ^ bs.length + bitsVal bs := by
        show bs.foldl _ (2 * 0 + cond b 1 0) = _
        rw [bitsVal_foldl bs (2 * 0 + cond b 1 0)]
        ring
      rw [hb, List.length_cons, pow_succ]
      ring

theorem bitsVal_cons (b : Bool) (bs : List Bool) :
    bitsVal (b :: bs) = cond b 1 0 * 2 ^ bs.length + bitsVal bs := by
  show bs.foldl _ (2 * 0 + cond b 1 0) = _
  rw [bitsVal_foldl bs (2 * 0 + cond b 1 0)]
  ring

theorem bitsVal_append (xs ys : List Bool) :
    bitsVal (xs ++ ys) = bitsVal xs * 2 ^ ys.length + bitsVal ys := by
  show (xs ++ ys).foldl _ 0 = _
  rw [List.foldl_append]
  exact bitsVal_foldl ys (bitsVal xs)

theorem bitsVal_lt (bs : List Bool) : bitsVal bs < 2 ^ bs.length := by
  induction bs with
  | nil => simp [bitsVal]
  | cons b bs ih =>
      rw [bitsVal_cons, List.length_cons, pow_succ]
      have hpos : 0 < 2 ^ bs.length := Nat.pos_pow_of_pos _ (by omega)
      cases b <;> simp <;> omega

theorem exists_eight (bs : List Bool) (h : bs.length = 8) :
    ∃ a b c d e f g h8, bs = [a, b, c, d, e, f, g, h8] := by
  match bs with
  | [a, b, c, d, e, f, g, h8] => exact ⟨a, b, c, d, e, f, g, h8, rfl⟩
  | [] | [_] | [_, _] | [_, _, _] | [_, _, _, _] | [_, _, _, _, _]
  | [_, _, _, _, _, _] | [_, _, _, _, _, _, _] => simp at h
  | _ :: _ :: _ :: _ :: _ :: _ :: _ :: _ :: _ :: _ => simp at h

theorem pack8_append :
    ∀ (n : Nat) (xs : List Bool), xs.length = 8 * n →
      ∀ ys, pack8 (xs ++ ys) = pack8 xs ++ pack8 ys
  | 0, xs, h, ys => by
      have hnil : xs = [] := List.eq_nil_of_length_eq_zero (by omega)
      subst hnil
      simp [pack8]
  | n + 1, xs, h, ys => by
      have h8 : (xs.take 8).length = 8 := by
        rw [List.length_take]; omega
      obtain ⟨a, b, c, d, e, f, g, h8', hxs8⟩ := exists_eight (xs.take 8) h8
      have hsplit : xs = xs.take 8 ++ xs.drop 8 := (List.take_append_drop 8 xs).symm
      have hdlen : (xs.drop 8).length = 8 * n := by
        rw [List.length_drop]; omega
      rw [hsplit, hxs8, List.append_assoc]
      show bitsVal [a, b, c, d, e, f, g, h8'] :: pack8 (xs.drop 8 ++ ys) = _
      rw [pack8_append n (xs.drop 8) hdlen ys]
      rfl

/-- `int(bits, 2).to_bytes(len(bits) // 8, 'big')` is exactly the byte-wise
MSB-first packing of the bit string, when the length is a byte multiple. -/
theorem natToBytes_pack8 :
    ∀ (n : Nat) (bits : List Bool), bits.length = 8 * n →
      natToBytes n (bitsVal bits) = pack8 bits
  | 0, bits, h => by
      have hnil : bits = [] := List.eq_nil_of_length_eq_zero (by omega)
      subst hnil
      rfl
  | n + 1, bits, h => by
      have hf : (bits.take (8 * n)).length = 8 * n := by
        rw [List.length_take]; omega
      have hl : (bits.drop (8 * n)).length = 8 := by
        rw [List.length_drop]; omega
      have hsplit : bits = bits.take (8 * n) ++ bits.drop (8 * n) :=
        (List.take_append_drop (8 * n) bits).symm
      rw [hsplit, bitsVal_append, hl]
      have hv : bitsVal (bits.drop (8 * n)) < 256 := by
        have := bitsVal_lt (bits.drop (8 * n))
        rw [hl] at this
        simpa using this
      show natToBytes n ((bitsVal (bits.take (8 * n)) * 2 ^ 8 +
        bitsVal (bits.drop (8 * n))) / 256) ++
        [(bitsVal (bits.take (8 * n)) * 2 ^ 8 + bitsVal (bits.drop (8 * n))) % 256] = _
      have hdiv : (bitsVal (bits.take (8 * n)) * 2 ^ 8 +
          bitsVal (bits.drop (8 * n))) / 256 = bitsVal (bits.take (8 * n)) := by
        have h28 : (2 : Nat) ^ 8 = 256 := by norm_num
        rw [h28]
        omega
      have hmod : (bitsVal (bits.take (8 * n)) * 2 ^ 8 +
          bitsVal (bits.drop (8 * n))) % 256 = bitsVal (bits.drop (8 * n)) := by
        have h28 : (2 : Nat) ^ 8 = 256 := by norm_num
        rw [h28]
        omega
      rw [hdiv, hmod, natToBytes_pack8 n (bits.take (8 * n)) hf,
        pack8_append n (bits.take (8 * n)) hf (bits.drop (8 * n))]
      obtain ⟨a, b, c, d, e, f, g, h8', hx⟩ := exists_eight (bits.drop (8 * n)) hl
      rw [hx]
      rfl

theorem byteBits_bitsVal8 :
    ∀ (a b c d e f g h : Bool),
      byteBits (bitsVal [a, b, c, d, e, f, g, h]) = [a, b, c, d, e, f, g, h] := by
  decide

/-- Unpacking inverts packing on byte-aligned bit strings. -/
theorem bytesToBits_pack8 :
    ∀ (n : Nat) (bits : List Bool), bits.length = 8 * n →
      bytesToBits (pack8 bits) = bits
  | 0, bits, h => by
      have hnil : bits = [] := List.eq_nil_of_length_eq_zero (by omega)
      subst hnil
      rfl
  | n + 1, bits, h => by
      have h8 : (bits.take 8).length = 8 := by
        rw [List.length_take]; omega
      obtain ⟨a, b, c, d, e, f, g, h8', hx⟩ := exists_eight (bits.take 8) h8
      have hsplit : bits = bits.take 8 ++ bits.drop 8 := (List.take_append_drop 8 bits).symm
      have hdlen : (bits.drop 8).length = 8 * n := by
        rw [List.length_drop]; omega
      rw [hsplit, hx]
      show bytesToBits (bitsVal [a, b, c, d, e, f, g, h8'] :: pack8 (bits.drop 8)) = _
      show byteBits (bitsVal [a, b, c, d, e, f, g, h8']) ++ bytesToBits (pack8 (bits.drop 8)) = _
      rw [byteBits_bitsVal8, bytesToBits_pack8 n (bits.drop 8) hdlen]

/-! ### Decoding -/

/-- On a prefix-free table, the longest-prefix match at the head of
`fb ++ rest`, where `fb` is the code of `b`, finds exactly `b`. -/
theorem findCode_first :
    ∀ (tbl : List (Nat × List Bool)) (b : Nat) (fb : List Bool) (rest : List Bool),
      ((tbl.map Prod.fst).Nodup) →
      (∀ p q, p ∈ tbl → q ∈ tbl → p.1 ≠ q.1 → ¬ (p.2 <+: q.2)) →
      (b, fb) ∈ tbl →
      findCode tbl (fb ++ rest) = some (b, rest)
  | [], _, _, _, _, _, hmem => by simp at hmem
  | (c, q) :: tl, b, fb, rest, hnd, hpf, hmem => by
      by_cases hcb : c = b
      · subst hcb
        have hq : q = fb := by
          rcases List.mem_cons.mp hmem with heq | hmem'
          · exact (Prod.mk.injEq .. ▸ heq.symm).2
          · exfalso
            rw [List.map_cons] at hnd
            exact (List.nodup_cons.mp hnd).1
              (List.mem_map.mpr ⟨(c, fb), hmem', rfl⟩)
        subst hq
        simp only [findCode]
        rw [if_pos (List.isPrefixOf_iff_prefix.mpr (List.prefix_append q rest)),
          List.drop_left]
      · have hnp : ¬ (q <+: fb ++ rest) := by
          intro hqpre
          have hfb : fb <+: fb ++ rest := List.prefix_append fb rest
          rcases List.prefix_or_prefix_of_prefix hqpre hfb with h1 | h1
          · exact hpf (c, q) (b, fb) (List.mem_cons_self _ _) hmem hcb h1
          · exact hpf (b, fb) (c, q) hmem (List.mem_cons_self _ _)
              (fun hcc => hcb hcc.symm) h1
        have hmem' : (b, fb) ∈ tl := by
          rcases List.mem_cons.mp hmem with heq | hmem'
          · exact absurd (congrArg Prod.fst heq).symm hcb
          · exact hmem'
        simp only [findCode]
        rw [if_neg (by
          intro hc
          exact hnp (List.isPrefixOf_iff_prefix.mp hc))]
        exact findCode_first tl b fb rest
          (List.nodup_cons.mp (List.map_cons _ _ _ ▸ hnd)).2
          (fun p q' hp hq' => hpf p q' (List.mem_cons_of_mem _ hp)
            (List.mem_cons_of_mem _ hq'))
          hmem'

/-- Decoding the concatenated codes of `data` (followed by anything, e.g. the
padding bits) for exactly `data.length` symbols recovers `data`. -/
theorem decodeBits_concat (tbl : List (Nat × List Bool))
    (hnd : (tbl.map Prod.fst).Nodup)
    (hpf : ∀ p q, p ∈ tbl → q ∈ tbl → p.1 ≠ q.1 → ¬ (p.2 <+: q.2))
    (f : Nat → List Bool) :
    ∀ (data : List Nat), (∀ b ∈ data, (b, f b) ∈ tbl) →
      ∀ tail, decodeBits tbl data.length ((data.map f).flatten ++ tail) = some data
  | [], _, tail => rfl
  | b :: rest, hmem, tail => by
      show decodeBits tbl (rest.length + 1) ((f b :: (rest.map f)).flatten ++ tail) =
        some (b :: rest)
      simp only [decodeBits, List.flatten_cons, List.append_assoc]
      rw [findCode_first tbl b (f b) ((rest.map f).flatten ++ tail) hnd hpf
        (hmem b (List.mem_cons_self b rest))]
      show (match decodeBits tbl rest.length ((List.map f rest).flatten ++ tail) with
        | none => none
        | some out => some (b :: out)) = some (b :: rest)
      rw [decodeBits_concat tbl hnd hpf f rest
        (fun x hx => hmem x (List.mem_cons_of_mem b hx)) tail]

/-! ### Whole-codec facts -/

/-- The full table story for a non-empty buffer: the table built by
`build_codes(build_huffman_tree(B))` is `codesOf root []` for a well-formed
root whose leaf chars are exactly the distinct bytes of `B`, without
duplicates. -/
theorem huffman_table_spec (data : List Nat) (hne : data ≠ []) :
    ∃ root, build_huffman_tree data = some root ∧ WFNode root ∧
      build_codes (build_huffman_tree data) [] [] = codesOf root [] ∧
      ((codesOf root []).map Prod.fst).Nodup ∧
      (∀ b, b ∈ (codesOf root []).map Prod.fst ↔ b ∈ data) := by
  obtain ⟨root, htree, hwf, hperm⟩ := build_huffman_tree_spec data hne
  have hnd_chars : (leafChars root).Nodup :=
    (hperm.nodup_iff).mpr (counter_fst_nodup data)
  refine ⟨root, htree, hwf, ?_, ?_, ?_⟩
  · rw [htree]
    exact build_codes_root hwf hnd_chars
  · rw [codesOf_fst hwf]
    exact hnd_chars
  · intro b
    rw [codesOf_fst hwf, hperm.mem_iff, counter_fst_mem]

theorem packEncoded_nil (codes : List (Nat × List Bool)) :
    packEncoded [] codes = none := rfl

/-- `packEncoded` on a non-empty bit string: zero-pad to a byte boundary and
pack 8 bits per byte, MSB first. -/
theorem packEncoded_eq (bits : List Bool) (codes : List (Nat × List Bool))
    (hne : bits ≠ []) :
    packEncoded bits codes =
      some (pack8 (bits ++ List.replicate ((8 - bits.length % 8) % 8) false),
        codes) := by
  have hlen : bits.length ≠ 0 := fun h => hne (List.eq_nil_of_length_eq_zero h)
  simp only [packEncoded]
  by_cases hmod : bits.length % 8 = 0
  · rw [hmod]
    have hpadif : (if (8 : Nat) - 0 ≠ 8 then bits ++ List.replicate (8 - 0) false
        else bits) = bits := if_neg (by norm_num)
    simp only [hpadif]
    rw [if_neg hlen]
    have h256 : (256 : Nat) ^ (bits.length / 8) = 2 ^ bits.length := by
      rw [show (256 : Nat) = 2 ^ 8 from by norm_num, ← pow_mul]
      congr 1
      omega
    rw [if_pos (by rw [h256]; exact bitsVal_lt bits)]
    rw [show ((8 : Nat) - 0) % 8 = 0 from by norm_num, List.replicate_zero,
      List.append_nil]
    rw [natToBytes_pack8 (bits.length / 8) bits (by omega)]
  · have hpadif : (if 8 - bits.length % 8 ≠ 8 then
        bits ++ List.replicate (8 - bits.length % 8) false else bits) =
        bits ++ List.replicate (8 - bits.length % 8) false := if_pos (by omega)
    simp only [hpadif]
    have hplen : (bits ++ List.replicate (8 - bits.length % 8) false).length =
        bits.length + (8 - bits.length % 8) := by
      rw [List.length_append, List.length_replicate]
    rw [hplen]
    rw [if_neg (by omega)]
    have h256 : (256 : Nat) ^ ((bits.length + (8 - bits.length % 8)) / 8) =
        2 ^ (bits.length + (8 - bits.length % 8)) := by
      rw [show (256 : Nat) = 2 ^ 8 from by norm_num, ← pow_mul]
      congr 1
      omega
    rw [if_pos (by
      rw [h256, ← hplen]
      exact bitsVal_lt _)]
    rw [show (8 - bits.length % 8) % 8 = 8 - bits.length % 8 from by omega]
    rw [natToBytes_pack8 ((bits.length + (8 - bits.length % 8)) / 8)
      (bits ++ List.replicate (8 - bits.length % 8) false) (by rw [hplen]; omega)]

/-- Inverting a successful `packEncoded`. -/
theorem packEncoded_some (bits : List Bool) (codes : List (Nat × List Bool))
    (bytes : List Nat) (tbl : List (Nat × List Bool))
    (h : packEncoded bits codes = some (bytes, tbl)) :
    tbl = codes ∧
    bytes = pack8 (bits ++ List.replicate ((8 - bits.length % 8) % 8) false) := by
  by_cases hne : bits = []
  · subst hne
    rw [packEncoded_nil] at h
    exact absurd h (by simp)
  · rw [packEncoded_eq bits codes hne] at h
    injection h with h'
    injection h' with hb ht
    exact ⟨ht.symm, hb.symm⟩

theorem flatten_map_nil (l : List Nat) :
    (l.map fun _ => ([] : List Bool)).flatten = [] := by
  induction l with
  | nil => rfl
  | cons b rest ih => simp [ih]

theorem wf_two_chars_node (root : HuffmanNode) (hwf : WFNode root) (a b : Nat)
    (ha : a ∈ leafChars root) (hb : b ∈ leafChars root) (hab : a ≠ b) :
    ∃ frq l r, root = HuffmanNode.mk none frq (some l) (some r) ∧
      WFNode l ∧ WFNode r := by
  cases hwf with
  | leaf c f =>
      rw [leafChars_leaf] at ha hb
      simp at ha hb
      exact absurd (ha.trans hb.symm) hab
  | node f l r hl hr => exact ⟨f, l, r, rfl, hl, hr⟩

theorem codesOf_root_entry_ne_nil (f : Nat) (l r : HuffmanNode)
    (hl : WFNode l) (hr : WFNode r) (p : Nat × List Bool)
    (hp : p ∈ codesOf (HuffmanNode.mk none f (some l) (some r)) []) :
    p.2 ≠ [] := by
  rw [codesOf_node, List.mem_append] at hp
  rcases hp with hp | hp
  · obtain ⟨s, hs⟩ := codesOf_shape hl _ p hp
    rw [hs]
    simp
  · obtain ⟨s, hs⟩ := codesOf_shape hr _ p hp
    rw [hs]
    simp

/-- C3 core (amended): on a buffer with at least two distinct byte values,
`huffman_encode` succeeds and the spec-modelled decode, run on the packed
bytes with the returned table and the original symbol count, recovers the
buffer exactly. -/
theorem huffman_roundtrip (data : List Nat)
    (hmulti : ∃ a ∈ data, ∃ b ∈ data, a ≠ b) :
    ∃ bytes tbl, huffman_encode data = some (bytes, tbl) ∧
      huffman_decode bytes tbl data.length = some data := by
  have hne : data ≠ [] := by
    rintro rfl
    obtain ⟨a, ha, -⟩ := hmulti
    simp at ha
  obtain ⟨root, htree, hwf, htbl, hnd, hmem⟩ := huffman_table_spec data hne
  have hpf : ∀ p q, p ∈ codesOf root [] → q ∈ codesOf root [] → p.1 ≠ q.1 →
      ¬ (p.2 <+: q.2) :=
    fun p q hp hq => codesOf_prefix_free hwf [] p q hp hq
  have hfst : (codesOf root []).map Prod.fst = leafChars root := codesOf_fst hwf []
  have hf : ∀ b ∈ data, dictGet (codesOf root []) b =
      some ((dictGet (codesOf root []) b).getD []) := by
    intro b hb
    have hbk : b ∈ (codesOf root []).map Prod.fst := (hmem b).mpr hb
    obtain ⟨v, hv⟩ := Option.isSome_iff_exists.mp ((dictGet_isSome_iff _ b).mpr hbk)
    rw [hv]
    rfl
  have hfm : ∀ b ∈ data, (b, (dictGet (codesOf root []) b).getD []) ∈ codesOf root [] :=
    fun b hb => dictGet_mem _ b _ (hf b hb)
  obtain ⟨a, ha, b', hb', hab⟩ := hmulti
  obtain ⟨frq, l, r, hrooteq, hl, hr⟩ := wf_two_chars_node root hwf a b'
    (by rw [← hfst]; exact (hmem a).mpr ha)
    (by rw [← hfst]; exact (hmem b').mpr hb') hab
  have hfne : ∀ b ∈ data, (dictGet (codesOf root []) b).getD [] ≠ [] := by
    intro b hb
    have hin := hfm b hb
    rw [hrooteq] at hin ⊢
    exact codesOf_root_entry_ne_nil frq l r hl hr _ hin
  obtain ⟨hd, tl, rfl⟩ : ∃ hd tl, data = hd :: tl := by
    cases data with
    | nil => exact absurd rfl hne
    | cons h t => exact ⟨h, t, rfl⟩
  have hbits_ne : ((hd :: tl).map fun b => (dictGet (codesOf root []) b).getD []).flatten ≠ [] := by
    intro hc
    rw [List.map_cons, List.flatten_cons] at hc
    exact hfne hd (List.mem_cons_self hd tl) (List.append_eq_nil.mp hc).1
  refine ⟨pack8 (((hd :: tl).map fun b => (dictGet (codesOf root []) b).getD []).flatten ++
      List.replicate ((8 - ((hd :: tl).map fun b =>
        (dictGet (codesOf root []) b).getD []).flatten.length % 8) % 8) false),
    codesOf root [], ?_, ?_⟩
  · simp only [huffman_encode]
    rw [htbl]
    rw [mapM_dictGet_eq_some (codesOf root [])
      (fun b => (dictGet (codesOf root []) b).getD []) (hd :: tl) hf]
    show packEncoded (((hd :: tl).map fun b =>
      (dictGet (codesOf root []) b).getD []).flatten) (codesOf root []) = _
    rw [packEncoded_eq _ _ hbits_ne]
  · show decodeBits (codesOf root []) (hd :: tl).length (bytesToBits (pack8 _)) = _
    have hplen : (((hd :: tl).map fun b => (dictGet (codesOf root []) b).getD []).flatten ++
        List.replicate ((8 - ((hd :: tl).map fun b =>
          (dictGet (codesOf root []) b).getD []).flatten.length % 8) % 8) false).length % 8 = 0 := by
      rw [List.length_append, List.length_replicate]
      omega
    rw [bytesToBits_pack8 ((((hd :: tl).map fun b =>
      (dictGet (codesOf root []) b).getD []).flatten ++
      List.replicate ((8 - ((hd :: tl).map fun b =>
        (dictGet (codesOf root []) b).getD []).flatten.length % 8) % 8) false).length / 8)
      _ (by omega)]
    exact decodeBits_concat (codesOf root []) hnd hpf
      (fun b => (dictGet (codesOf root []) b).getD []) (hd :: tl) hfm _

/-! ### Single-symbol behaviour -/

theorem foldl_addCount_replicate (b : Nat) :
    ∀ (m c : Nat), (List.replicate m b).foldl addCount [(b, c)] = [(b, c + m)]
  | 0, c => by simp
  | m + 1, c => by
      rw [List.replicate_succ, List.foldl_cons]
      have hstep : addCount [(b, c)] b = [(b, c + 1)] := by simp [addCount]
      rw [hstep, foldl_addCount_replicate b m (c + 1),
        show c + 1 + m = c + (m + 1) from by omega]

theorem counter_replicate (b n : Nat) (h : 1 ≤ n) :
    counter (List.replicate n b) = [(b, n)] := by
  obtain ⟨m, rfl⟩ : ∃ m, n = m + 1 := ⟨n - 1, by omega⟩
  rw [counter, List.replicate_succ, List.foldl_cons]
  show (List.replicate m b).foldl addCount (addCount [] b) = [(b, m + 1)]
  rw [show addCount [] b = [(b, 1)] from rfl, foldl_addCount_replicate b m 1,
    show 1 + m = m + 1 from by omega]

theorem heapify_singleton (x : HuffmanNode) : heapify [x] = [x] := by
  unfold heapify
  norm_num

theorem build_huffman_tree_replicate (b n : Nat) (h : 1 ≤ n) :
    build_huffman_tree (List.replicate n b) =
      some (HuffmanNode.mk (some b) n none none) := by
  unfold build_huffman_tree
  rw [counter_replicate b n h]
  show buildLoop (heapify [HuffmanNode.mk (some b) n none none]).length
    (heapify [HuffmanNode.mk (some b) n none none]) = _
  rw [heapify_singleton]
  rfl

theorem build_codes_single_leaf (b n : Nat) :
    build_codes (some (HuffmanNode.mk (some b) n none none)) [] [] = [(b, [])] := rfl

/-- C2 core: on a buffer with exactly one distinct byte value, the single
symbol receives the empty code, and `huffman_encode` hits `int('', 2)` and
raises (`none`). -/
theorem huffman_encode_single (b n : Nat) (h : 1 ≤ n) :
    huffman_encode (List.replicate n b) = none ∧
    dictGet (build_codes (build_huffman_tree (List.replicate n b)) [] []) b =
      some [] := by
  constructor
  · obtain ⟨m, rfl⟩ : ∃ m, n = m + 1 := ⟨n - 1, by omega⟩
    rw [List.replicate_succ]
    simp only [huffman_encode]
    rw [← List.replicate_succ]
    rw [build_huffman_tree_replicate b (m + 1) (by omega),
      build_codes_single_leaf b (m + 1)]
    rw [mapM_dictGet_eq_some [(b, [])] (fun _ => []) (List.replicate (m + 1) b)
      (by
        intro x hx
        rw [List.eq_of_mem_replicate hx]
        simp [dictGet])]
    show packEncoded ((List.replicate (m + 1) b).map fun _ =>
      ([] : List Bool)).flatten [(b, [])] = none
    rw [flatten_map_nil]
    rfl
  · rw [build_huffman_tree_replicate b n h, build_codes_single_leaf b n]
    simp [dictGet]

/-- C9 core: any successful encode packs exactly the concatenation of the
input bytes' codes from the returned table, zero-padded on the right to a
byte boundary, 8 bits per byte MSB first. -/
theorem huffman_encode_packs (B : List Nat) (bytes : List Nat)
    (tbl : List (Nat × List Bool)) (h : huffman_encode B = some (bytes, tbl)) :
    ∃ bitsList : List (List Bool),
      B.mapM (fun b => dictGet tbl b) = some bitsList ∧
      bytes = pack8 (bitsList.flatten ++
        List.replicate ((8 - bitsList.flatten.length % 8) % 8) false) := by
  cases B with
  | nil =>
      have h' : some (([] : List Nat), ([] : List (Nat × List Bool))) =
          some (bytes, tbl) := h
      injection h' with h''
      injection h'' with hb ht
      subst hb
      subst ht
      exact ⟨[], rfl, rfl⟩
  | cons hd tl =>
      simp only [huffman_encode] at h
      cases hmap : (hd :: tl).mapM
          (fun x => dictGet (build_codes (build_huffman_tree (hd :: tl)) [] []) x) with
      | none =>
          rw [hmap] at h
          exact absurd h (by simp)
      | some bl =>
          rw [hmap] at h
          have h' : packEncoded bl.flatten
              (build_codes (build_huffman_tree (hd :: tl)) [] []) =
              some (bytes, tbl) := h
          obtain ⟨ht, hb⟩ := packEncoded_some _ _ _ _ h'
          subst ht
          exact ⟨bl, hmap, hb⟩

theorem rle_decode_nil : rle_decode [] = [] := rfl

theorem rle_decode_pair (v c : Nat) (rest : List Nat) :
    rle_decode (v :: c :: rest) = List.replicate c v ++ rle_decode rest := rfl

/-- Decoding distributes over concatenation when the first part consists of
complete pairs (even length). -/
theorem rle_decode_append :
    ∀ (l₁ : List Nat), l₁.length % 2 = 0 → ∀ l₂,
      rle_decode (l₁ ++ l₂) = rle_decode l₁ ++ rle_decode l₂
  | [], _, l₂ => by simp [rle_decode]
  | [v], h, _ => by simp at h
  | v :: c :: rest, h, l₂ => by
      have h' : rest.length % 2 = 0 := by
        simp only [List.length_cons] at h; omega
      simp [rle_decode, rle_decode_append rest h' l₂, List.append_assoc]

/-- Invariant of the encoder loop: decoding the result recovers the
accumulator's decoding, the pending run, and the remaining input. -/
theorem rle_decode_rleLoop (rest : List Nat) :
    ∀ prev count acc, acc.length % 2 = 0 →
    rle_decode (rleLoop rest prev count acc) =
      rle_decode acc ++ List.replicate count prev ++ rest := by
  induction rest with
  | nil =>
      intro prev count acc hacc
      simp [rleLoop, rle_decode_append _ hacc _, rle_decode]
  | cons byte rest ih =>
      intro prev count acc hacc
      by_cases hc : byte = prev ∧ count < 255
      · rw [rleLoop, if_pos hc, ih prev (count + 1) acc hacc, hc.1]
        simp [List.replicate_succ', List.append_assoc]
      · rw [rleLoop, if_neg hc, ih byte 1 _ (by simp [Nat.add_mod, hacc])]
        rw [rle_decode_append _ hacc _]
        simp [rle_decode, List.append_assoc]

/-- C1 core: RLE round-trip on every byte buffer. -/
theorem rle_roundtrip (data : List Nat) :
    rle_decode (rle_encode data) = data := by
  cases data with
  | nil => rfl
  | cons b rest =>
      rw [rle_encode, rle_decode_rleLoop rest b 1 [] rfl]
      simp [rle_decode]

theorem rleLoop_nil (p c : Nat) (acc : List Nat) :
    rleLoop [] p c acc = acc ++ [p, c] := rfl

theorem rleLoop_cons (byte : Nat) (rest : List Nat) (p c : Nat) (acc : List Nat) :
    rleLoop (byte :: rest) p c acc =
      if byte = p ∧ c < 255 then rleLoop rest p (c + 1) acc
      else rleLoop rest byte 1 (acc ++ [p, c]) := rfl

/-- The loop accumulator only ever receives appends. -/
theorem rleLoop_acc (rest : List Nat) :
    ∀ p c acc, rleLoop rest p c acc = acc ++ rleLoop rest p c [] := by
  induction rest with
  | nil => intro p c acc; simp [rleLoop]
  | cons byte rest ih =>
      intro p c acc
      by_cases hc : byte = p ∧ c < 255
      · rw [rleLoop, if_pos hc, rleLoop, if_pos hc, ih]
      · rw [rleLoop, if_neg hc, rleLoop, if_neg hc, ih byte 1 (acc ++ [p, c]),
          ih byte 1 ([] ++ [p, c])]
        simp

/-- Hitting a byte different from the last byte of the run-in-progress always
flushes the pending pair, independently of the count reached. -/
theorem rleLoop_split (xs : List Nat) :
    ∀ p c acc y ys, y ≠ (p :: xs).getLast (List.cons_ne_nil p xs) →
      rleLoop (xs ++ y :: ys) p c acc = rleLoop ys y 1 (rleLoop xs p c acc) := by
  induction xs with
  | nil =>
      intro p c acc y ys hy
      simp only [List.getLast_singleton] at hy
      simp only [List.nil_append, rleLoop]
      rw [if_neg (by tauto)]
  | cons x xs ih =>
      intro p c acc y ys hy
      have hlast : (p :: x :: xs).getLast (List.cons_ne_nil _ _) =
          (x :: xs).getLast (List.cons_ne_nil _ _) := List.getLast_cons _
      by_cases hc : x = p ∧ c < 255
      · have hy' : y ≠ (p :: xs).getLast (List.cons_ne_nil p xs) := by
          cases xs with
          | nil => simpa [hc.1, hlast] using hy
          | cons z zs =>
              rw [hlast] at hy
              rwa [List.getLast_cons (List.cons_ne_nil z zs)]
        simp only [List.cons_append, rleLoop, List.append_eq]
        rw [if_pos hc, if_pos hc, ih _ _ _ _ _ hy']
      · have hy' : y ≠ (x :: xs).getLast (List.cons_ne_nil x xs) := by
          rwa [hlast] at hy
        simp only [List.cons_append, rleLoop, List.append_eq]
        rw [if_neg hc, if_neg hc, ih _ _ _ _ _ hy']

/-- RLE encoding splits across a boundary where the byte value changes. -/
theorem rle_encode_append (X : List Nat) (hX : X ≠ []) (y : Nat) (ys : List Nat)
    (hy : y ≠ X.getLast hX) :
    rle_encode (X ++ y :: ys) = rle_encode X ++ rle_encode (y :: ys) := by
  match X, hX with
  | x :: xs, _ =>
      rw [List.cons_append, rle_encode, rle_encode, rle_encode,
        rleLoop_split xs x 1 [] y ys hy, rleLoop_acc]

/-- Counting up inside a run that stays at or below the 255 cap. -/
theorem rleLoop_replicate_le (v : Nat) :
    ∀ m c acc, m + c ≤ 255 → 1 ≤ c →
      rleLoop (List.replicate m v) v c acc = acc ++ [v, c + m] := by
  intro m
  induction m with
  | zero => intro c acc _ _; simp [rleLoop]
  | succ m ih =>
      intro c acc h hc
      rw [List.replicate_succ, rleLoop_cons,
        if_pos (show v = v ∧ c < 255 from ⟨rfl, by omega⟩),
        ih (c + 1) acc (by omega) (by omega)]
      congr 3
      omega

/-- Saturation at 255: a long enough run flushes a `(v, 255)` pair and
restarts the count at 1. -/
theorem rleLoop_replicate_gt (v : Nat) :
    ∀ m c acc, c ≤ 255 → 256 ≤ m + c →
      rleLoop (List.replicate m v) v c acc =
        rleLoop (List.replicate (m + c - 256) v) v 1 (acc ++ [v, 255]) := by
  intro m
  induction m with
  | zero => intro c acc h h'; omega
  | succ m ih =>
      intro c acc h h'
      by_cases hc : c < 255
      · rw [List.replicate_succ, rleLoop_cons,
          if_pos (show v = v ∧ c < 255 from ⟨rfl, hc⟩),
          ih (c + 1) acc (by omega) (by omega),
          show m + (c + 1) - 256 = m + 1 + c - 256 from by omega]
      · have hc255 : c = 255 := by omega
        rw [List.replicate_succ, rleLoop_cons,
          if_neg (show ¬ (v = v ∧ c < 255) from fun hck => hc hck.2), hc255,
          show m + 1 + 255 - 256 = m from by omega]

theorem runSplit_ne_nil (k : Nat) : runSplit k ≠ [] := by
  rw [runSplit]
  split <;> simp

/-- Encoding a pure run: one `(v, count)` pair per `runSplit` block. -/
theorem rle_encode_replicate (k v : Nat) (hk : 1 ≤ k) :
    rle_encode (List.replicate k v) = (runSplit k).flatMap (fun c => [v, c]) := by
  obtain ⟨m, rfl⟩ : ∃ m, k = m + 1 := ⟨k - 1, by omega⟩
  have hunfold : rle_encode (List.replicate (m + 1) v) =
      rleLoop (List.replicate m v) v 1 [] := by
    rw [List.replicate_succ, rle_encode]
  by_cases h : m + 1 ≤ 255
  · rw [hunfold, rleLoop_replicate_le v m 1 [] (by omega) le_rfl, runSplit, if_pos h]
    rw [List.flatMap_cons, List.flatMap_nil, List.nil_append, List.append_nil,
      Nat.add_comm 1 m]
  · rw [hunfold, rleLoop_replicate_gt v m 1 [] (by omega) (by omega), rleLoop_acc,
      runSplit, if_neg h]
    have hrec : rle_encode (List.replicate (m + 1 - 255) v) =
        (runSplit (m + 1 - 255)).flatMap (fun c => [v, c]) :=
      rle_encode_replicate (m + 1 - 255) v (by omega)
    obtain ⟨m', hm'⟩ : ∃ m', m + 1 - 255 = m' + 1 := ⟨m - 255, by omega⟩
    rw [hm', List.replicate_succ, rle_encode] at hrec
    have h256 : m + 1 - 256 = m' := by omega
    rw [h256, hrec, ← hm']
    rw [List.flatMap_cons, List.nil_append]
termination_by k
decreasing_by simp_wf; omega

theorem runSplit_length (k : Nat) (hk : 1 ≤ k) :
    (runSplit k).length = (k + 254) / 255 := by
  by_cases h : k ≤ 255
  · rw [runSplit, if_pos h, List.length_singleton]
    omega
  · rw [runSplit, if_neg h, List.length_cons, runSplit_length (k - 255) (by omega)]
    omega
termination_by k
decreasing_by simp_wf; omega

theorem runSplit_dropLast (k : Nat) :
    ∀ c ∈ (runSplit k).dropLast, c = 255 := by
  by_cases h : k ≤ 255
  · rw [runSplit, if_pos h]
    simp
  · rw [runSplit, if_neg h]
    obtain ⟨b, l, hbl⟩ : ∃ b l, runSplit (k - 255) = b :: l := by
      cases hr : runSplit (k - 255) with
      | nil => exact absurd hr (runSplit_ne_nil _)
      | cons b l => exact ⟨b, l, rfl⟩
    rw [hbl, List.dropLast_cons₂]
    intro c hc
    rcases List.mem_cons.mp hc with hc | hc
    · exact hc
    · exact runSplit_dropLast (k - 255) c (by rw [hbl]; exact hc)
termination_by k
decreasing_by simp_wf; omega

/-- C5 core: a maximal interior run of length `k > 255` encodes to the
`runSplit k` pairs, in place. -/
theorem rle_encode_maximal_run (A C : List Nat) (k v : Nat) (hk : 255 < k)
    (hA : A.getLast? ≠ some v) (hC : C.head? ≠ some v) :
    rle_encode (A ++ (List.replicate k v ++ C)) =
      rle_encode A ++ ((runSplit k).flatMap fun c => [v, c]) ++ rle_encode C := by
  obtain ⟨m, rfl⟩ : ∃ m, k = m + 1 := ⟨k - 1, by omega⟩
  have hne : List.replicate (m + 1) v ≠ [] := List.replicate_succ_ne_nil m v
  have hmid : rle_encode (List.replicate (m + 1) v ++ C) =
      ((runSplit (m + 1)).flatMap fun c => [v, c]) ++ rle_encode C := by
    cases C with
    | nil =>
        rw [List.append_nil, rle_encode_replicate (m + 1) v (by omega)]
        simp [rle_encode]
    | cons y ys =>
        have hy : y ≠ (List.replicate (m + 1) v).getLast hne := by
          rw [List.getLast_replicate]
          intro hcontr
          exact hC (by rw [List.head?_cons, hcontr])
        rw [rle_encode_append _ hne y ys hy, rle_encode_replicate (m + 1) v (by omega)]
  cases A with
  | nil => simpa using hmid
  | cons a as =>
      have hv : v ≠ (a :: as).getLast (List.cons_ne_nil a as) := by
        intro hcontr
        apply hA
        rw [List.getLast?_eq_getLast _ (List.cons_ne_nil a as), ← hcontr]
      have hshape : List.replicate (m + 1) v ++ C = v :: (List.replicate m v ++ C) := by
        rw [List.replicate_succ, List.cons_append]
      rw [hshape, rle_encode_append (a :: as) (List.cons_ne_nil a as) v _ hv,
        ← hshape, hmid, List.append_assoc]

/-- Length of the flattened pair representation. -/
theorem flatMap_pairs_length (pairs : List (Nat × Nat)) :
    (pairs.flatMap fun p => [p.1, p.2]).length = 2 * pairs.length := by
  induction pairs with
  | nil => simp
  | cons p ps ih => simp [ih]; omega

/-- Every output of the encoder loop is a flat list of `(value, count)` pairs
with counts in `[1, 255]`, provided the accumulator and pending count are. -/
theorem rleLoop_pairs (rest : List Nat) :
    ∀ (p c : Nat) (pairs : List (Nat × Nat)),
      1 ≤ c → c ≤ 255 → (∀ q ∈ pairs, 1 ≤ q.2 ∧ q.2 ≤ 255) →
      ∃ pairs' : List (Nat × Nat),
        rleLoop rest p c (pairs.flatMap fun q => [q.1, q.2]) =
          pairs'.flatMap (fun q => [q.1, q.2]) ∧
        ∀ q ∈ pairs', 1 ≤ q.2 ∧ q.2 ≤ 255 := by
  induction rest with
  | nil =>
      intro p c pairs h1 h255 hall
      refine ⟨pairs ++ [(p, c)], ?_, ?_⟩
      · rw [rleLoop_nil, List.flatMap_append]
        simp
      · intro q hq
        rcases List.mem_append.mp hq with hq | hq
        · exact hall q hq
        · simp at hq
          subst hq
          exact ⟨h1, h255⟩
  | cons byte rest ih =>
      intro p c pairs h1 h255 hall
      rw [rleLoop_cons]
      by_cases hc : byte = p ∧ c < 255
      · rw [if_pos hc]
        exact ih p (c + 1) pairs (by omega) (by omega) hall
      · rw [if_neg hc]
        have hstep : (pairs.flatMap fun q => [q.1, q.2]) ++ [p, c] =
            (pairs ++ [(p, c)]).flatMap fun q => [q.1, q.2] := by
          rw [List.flatMap_append]
          simp
        rw [hstep]
        refine ih byte 1 (pairs ++ [(p, c)]) le_rfl (by omega) ?_
        intro q hq
        rcases List.mem_append.mp hq with hq | hq
        · exact hall q hq
        · simp at hq
          subst hq
          exact ⟨h1, h255⟩

/-- C6 core: the encoder's output is a flat sequence of `(value, count)`
pairs with every count in `[1, 255]`; in particular it has even length. -/
theorem rle_encode_pairs (data : List Nat) :
    ∃ pairs : List (Nat × Nat),
      rle_encode data = pairs.flatMap (fun q => [q.1, q.2]) ∧
      (∀ q ∈ pairs, 1 ≤ q.2 ∧ q.2 ≤ 255) ∧
      (rle_encode data).length % 2 = 0 := by
  cases data with
  | nil => exact ⟨[], rfl, by simp, by simp [rle_encode]⟩
  | cons b rest =>
      obtain ⟨pairs, heq, hall⟩ :=
        rleLoop_pairs rest b 1 ([] : List (Nat × Nat)) le_rfl (by omega) (by simp)
      refine ⟨pairs, ?_, hall, ?_⟩
      · rw [rle_encode]
        simpa using heq
      · rw [rle_encode]
        have : rleLoop rest b 1 [] = pairs.flatMap fun q => [q.1, q.2] := by
          simpa using heq
        rw [this, flatMap_pairs_length]
        omega

/-- C7 core: on an odd-length buffer, decoding ignores the final byte. -/
theorem rle_decode_odd :
    ∀ data : List Nat, data.length % 2 = 1 →
      rle_decode data = rle_decode data.dropLast
  | [], h => by simp at h
  | [v], _ => by simp [rle_decode]
  | v :: c :: rest, h => by
      have hr : rest.length % 2 = 1 := by
        simp only [List.length_cons] at h; omega
      have hne : rest ≠ [] := by
        intro hcontr; rw [hcontr] at hr; simp at hr
      rw [rle_decode_pair, rle_decode_odd rest hr, List.dropLast_cons₂]
      cases rest with
      | nil => exact absurd rfl hne
      | cons r rs =>
          rw [List.dropLast_cons_of_ne_nil (List.cons_ne_nil r rs), rle_decode_pair]

/-- C10 core: the decoded length is the sum of the count bytes sitting at the
odd positions of the even-length prefix of the input. -/
theorem rle_decode_length :
    ∀ data : List Nat,
      (rle_decode data).length =
        (Finset.range (data.length / 2)).sum (fun i => data.getD (2 * i + 1) 0)
  | [] => by simp [rle_decode]
  | [v] => by simp [rle_decode]
  | v :: c :: rest => by
      have ih := rle_decode_length rest
      rw [rle_decode_pair, List.length_append, List.length_replicate, ih]
      have hlen : (v :: c :: rest).length / 2 = rest.length / 2 + 1 := by
        simp only [List.length_cons]; omega
      rw [hlen, Finset.sum_range_succ']
      have h0 : (v :: c :: rest).getD (2 * 0 + 1) 0 = c := rfl
      have hs : ∀ i, (v :: c :: rest).getD (2 * (i + 1) + 1) 0 = rest.getD (2 * i + 1) 0 := by
        intro i
        have : 2 * (i + 1) + 1 = (2 * i + 1) + 1 + 1 := by omega
        rw [this, List.getD_cons_succ, List.getD_cons_succ]
      rw [h0]
      rw [Finset.sum_congr rfl (fun i _ => hs i)]
      omega

end Compression

/-- C1: for every byte buffer B (including the empty buffer),
`rle_decode(rle_encode(B)) == B`. -/
theorem C1_rle_roundtrip (B : List Nat) :
    Compression.rle_decode (Compression.rle_encode B) = B :=
  Compression.rle_roundtrip B

/-- C5: every maximal run of `k > 255` identical bytes is encoded, in place, as
`ceil(k/255)` `(value, count)` pairs whose counts are `runSplit k`: all counts
except the last are 255 (`(k + 254) / 255` is `ceil(k/255)` in `Nat`
arithmetic). -/
theorem C5_rle_long_run (A C : List Nat) (k v : Nat) (hk : 255 < k)
    (hA : A.getLast? ≠ some v) (hC : C.head? ≠ some v) :
    Compression.rle_encode (A ++ (List.replicate k v ++ C)) =
      Compression.rle_encode A ++
        ((Compression.runSplit k).flatMap fun c => [v, c]) ++
        Compression.rle_encode C ∧
    (Compression.runSplit k).length = (k + 254) / 255 ∧
    ∀ c ∈ (Compression.runSplit k).dropLast, c = 255 :=
  ⟨Compression.rle_encode_maximal_run A C k v hk hA hC,
   Compression.runSplit_length k (by omega),
   Compression.runSplit_dropLast k⟩

/-- C5 witness: a 500-byte run of one value encodes to exactly the two pairs
`(v, 255), (v, 245)`. -/
theorem C5_witness :
    Compression.rle_encode (List.replicate 500 65) = [65, 255, 65, 245] := by
  have h := (C5_rle_long_run [] [] 500 65 (by omega) (by simp) (by simp)).1
  rw [List.nil_append, List.append_nil] at h
  rw [h]
  rw [Compression.runSplit, if_neg (by omega),
    show (500 : Nat) - 255 = 245 from by omega,
    Compression.runSplit, if_pos (by omega)]
  rfl

/-- C6: for every byte buffer, the RLE-encoded output is a flat sequence of
alternating `(value, count)` byte pairs, every count lying in `[1, 255]`; in
particular the output length is even. -/
theorem C6_rle_pairs (B : List Nat) :
    ∃ pairs : List (Nat × Nat),
      Compression.rle_encode B = pairs.flatMap (fun q => [q.1, q.2]) ∧
      (∀ q ∈ pairs, 1 ≤ q.2 ∧ q.2 ≤ 255) ∧
      (Compression.rle_encode B).length % 2 = 0 :=
  Compression.rle_encode_pairs B

/-- C7: on every odd-length input, `rle_decode` silently drops the final
unmatched byte: the result is the decoding of the input without its last
byte (and, being a total function, it raises no error). -/
theorem C7_rle_decode_odd (B : List Nat) (h : B.length % 2 = 1) :
    Compression.rle_decode B = Compression.rle_decode B.dropLast :=
  Compression.rle_decode_odd B h

/-- C7 witness: decoding the odd-length buffer `[65, 2, 66]` drops the
trailing `66` and yields `[65, 65]`. -/
theorem C7_witness :
    Compression.rle_decode [65, 2, 66] = Compression.rle_decode [65, 2] ∧
    Compression.rle_decode [65, 2, 66] = [65, 65] := by
  have h := C7_rle_decode_odd [65, 2, 66] (by decide)
  exact ⟨h, by decide⟩

/-- C10: `rle_decode` is total on every byte buffer (it is a Lean function,
so it never raises); the output length is the sum of the count bytes at the
odd positions of the even-length prefix, and a pair with count byte 0
contributes nothing. -/
theorem C10_rle_decode_total (B : List Nat) :
    (Compression.rle_decode B).length =
      (Finset.range (B.length / 2)).sum (fun i => B.getD (2 * i + 1) 0) ∧
    ∀ v rest, Compression.rle_decode (v :: 0 :: rest) = Compression.rle_decode rest :=
  ⟨Compression.rle_decode_length B,
   fun v rest => by rw [Compression.rle_decode_pair, List.replicate_zero, List.nil_append]⟩

/-- C2: the claim says single-distinct-symbol buffers must not raise and must
receive a non-empty code; the code instead assigns the single symbol the
empty code and `int('', 2)` raises `ValueError` (modelled by `none`), for
every non-empty single-symbol buffer. -/
theorem C2_huffman_single_symbol (b n : Nat) (h : 1 ≤ n) :
    Compression.huffman_encode (List.replicate n b) = none ∧
    Compression.dictGet
      (Compression.build_codes
        (Compression.build_huffman_tree (List.replicate n b)) [] []) b =
      some [] :=
  Compression.huffman_encode_single b n h

/-- C2 witness: `b"ZZZZZZ"` (six bytes 90) raises — `huffman_encode` returns
`none` — and the code assigned to 90 is the empty bit string. -/
theorem C2_witness :
    Compression.huffman_encode (List.replicate 6 90) = none ∧
    Compression.dictGet
      (Compression.build_codes
        (Compression.build_huffman_tree (List.replicate 6 90)) [] []) 90 =
      some [] :=
  C2_huffman_single_symbol 90 6 (by omega)

/-- C3 counterexample: at the non-empty buffer `[0, 0]` the claim fails:
`huffman_encode` raises (`none`), so there are no packed bytes or table for
any decode operation to invert. -/
theorem C3_counterexample :
    Compression.huffman_encode [0, 0] = none := by decide

/-- C3 (amended): for every byte buffer with at least two distinct byte
values, `huffman_encode` succeeds, and the decode operation modelled from
§4.2 (longest-prefix match against the returned table, stopping after the
original symbol count) recovers the buffer exactly from the packed bytes. -/
theorem C3_huffman_roundtrip (B : List Nat)
    (hmulti : ∃ a ∈ B, ∃ b ∈ B, a ≠ b) :
    ∃ bytes tbl, Compression.huffman_encode B = some (bytes, tbl) ∧
      Compression.huffman_decode bytes tbl B.length = some B :=
  Compression.huffman_roundtrip B hmulti

/-- C3 witness: round trip at the concrete buffer `[0, 1]`. -/
theorem C3_witness :
    ∃ bytes tbl, Compression.huffman_encode [0, 1] = some (bytes, tbl) ∧
      Compression.huffman_decode bytes tbl 2 = some [0, 1] :=
  C3_huffman_roundtrip [0, 1] (by decide)

/-- C4: for every non-empty buffer, the table built by
`build_codes(build_huffman_tree(B))` has an entry exactly for every byte
value occurring in `B`, and no byte's code is a prefix of a different
byte's code. -/
theorem C4_huffman_table (B : List Nat) (hne : B ≠ []) :
    (∀ b, (Compression.dictGet
        (Compression.build_codes (Compression.build_huffman_tree B) [] [])
        b).isSome = true ↔ b ∈ B) ∧
    (∀ b1 c1 b2 c2,
      Compression.dictGet
        (Compression.build_codes (Compression.build_huffman_tree B) [] [])
        b1 = some c1 →
      Compression.dictGet
        (Compression.build_codes (Compression.build_huffman_tree B) [] [])
        b2 = some c2 →
      b1 ≠ b2 → ¬ (c1 <+: c2)) := by
  obtain ⟨root, htree, hwf, htbl, hnd, hmem⟩ :=
    Compression.huffman_table_spec B hne
  rw [htbl]
  constructor
  · intro b
    rw [Compression.dictGet_isSome_iff]
    exact hmem b
  · intro b1 c1 b2 c2 h1 h2 hne12
    exact Compression.codesOf_prefix_free hwf [] (b1, c1) (b2, c2)
      (Compression.dictGet_mem _ _ _ h1) (Compression.dictGet_mem _ _ _ h2) hne12

/-- C4 witness: at `B = [0, 1]` the table has an entry for byte 0 (and, by
the theorem's first conjunct evaluated at 2, none for the absent byte 2). -/
theorem C4_witness :
    (Compression.dictGet
      (Compression.build_codes (Compression.build_huffman_tree [0, 1]) [] [])
      0).isSome = true := by
  have h := C4_huffman_table [0, 1] (by decide)
  exact (h.1 0).mpr (by decide)

/-- C8: on the empty buffer every codec operation returns empty output
without error: RLE encode and decode return empty buffers, `huffman_encode`
returns an empty byte sequence with an empty table, and
`build_huffman_tree` returns no tree. -/
theorem C8_empty_buffer :
    Compression.rle_encode [] = [] ∧
    Compression.rle_decode [] = [] ∧
    Compression.huffman_encode [] = some ([], []) ∧
    Compression.build_huffman_tree [] = none :=
  ⟨rfl, rfl, rfl, rfl⟩

/-- C9: whenever `huffman_encode B` succeeds, the packed bytes are exactly
the concatenation, in input order, of each input byte's code from the
returned table, right-padded with zero bits to the next multiple of 8 and
packed 8 bits per byte most-significant-bit first (`pack8`). -/
theorem C9_huffman_packing (B : List Nat) (bytes : List Nat)
    (tbl : List (Nat × List Bool))
    (h : Compression.huffman_encode B = some (bytes, tbl)) :
    ∃ bitsList : List (List Bool),
      B.mapM (fun b => Compression.dictGet tbl b) = some bitsList ∧
      bytes = Compression.pack8 (bitsList.flatten ++
        List.replicate ((8 - bitsList.flatten.length % 8) % 8) false) :=
  Compression.huffman_encode_packs B bytes tbl h

/-- C9 witness: at `B = [0, 1]` the encoder returns byte `10000000₂ = 128`,
the packing of the two code bits `10` plus six zero padding bits. -/
theorem C9_witness :
    ∃ bitsList : List (List Bool),
      ([0, 1] : List Nat).mapM
        (fun b => Compression.dictGet [(1, [false]), (0, [true])] b) =
        some bitsList ∧
      [128] = Compression.pack8 (bitsList.flatten ++
        List.replicate ((8 - bitsList.flatten.length % 8) % 8) false) :=
  C9_huffman_packing [0, 1] [128] [(1, [false]), (0, [true])] (by decide)
